import Mathlib

/-!
Verification of the dinov2/Milvus patent-image ingestion and search system.

The definitions below are a shallow embedding of the Python sources:
  scripts/import_design_patents_full.py  (ingestion pipeline, batch writer,
                                          dedup scan, periodic GC)
  scripts/design_patent_parser.py        (corpus scanner)
  app/api/search_design.py               (result grouping, HTTP envelopes)
  app/api/search_base.py                 (envelope shape for the base API)
  app/services/design_patent_service.py  (filter expression, min-score filter)

External collaborators (Milvus, MinIO, the DINOv2 extractor, the local file
system) are modelled as deterministic parameters: an environment function
says, for each image record, whether the local file exists, whether the
MinIO upload succeeds, whether feature extraction succeeds, and whether the
vector store accepts the record on insert.  Similarity scores are modelled
as integers: every claim about scores only uses their ordering.
-/

namespace DinovMilvus

/-! ## Stable sorting (model of Python `list.sort` / `sorted`)

Python's `list.sort(key=…)` and `sorted(…, key=…)` are stable.  We model
them with a left-fold insertion sort: `keep y x = true` means an already
placed element `y` stays in front of the newly arriving element `x`, so
with `keep y x := key y ≤ key x` we obtain a stable ascending sort and
with `keep y x := key x ≤ key y` a stable descending sort (Python's
`reverse=True`). -/

def insertKeep (keep : α → α → Bool) (x : α) : List α → List α
  | [] => [x]
  | y :: ys => if keep y x then y :: insertKeep keep x ys else x :: y :: ys

def stableSortKeep (keep : α → α → Bool) (l : List α) : List α :=
  l.foldl (fun acc x => insertKeep keep x acc) []

theorem mem_insertKeep (keep : α → α → Bool) (x a : α) (l : List α) :
    a ∈ insertKeep keep x l ↔ a = x ∨ a ∈ l := by
  induction l with
  | nil => simp [insertKeep]
  | cons y ys ih =>
    by_cases h : keep y x = true <;> simp [insertKeep, h, ih] <;> tauto

theorem mem_foldl_insertKeep (keep : α → α → Bool) (a : α) :
    ∀ (l acc : List α),
      a ∈ l.foldl (fun acc x => insertKeep keep x acc) acc ↔ a ∈ acc ∨ a ∈ l := by
  intro l
  induction l with
  | nil => simp
  | cons x xs ih =>
    intro acc
    simp only [List.foldl_cons, ih, mem_insertKeep, List.mem_cons]
    tauto

theorem mem_stableSortKeep (keep : α → α → Bool) (a : α) (l : List α) :
    a ∈ stableSortKeep keep l ↔ a ∈ l := by
  simp [stableSortKeep, mem_foldl_insertKeep]

/-- The relation satisfied by every ordered pair in the output of a stable
sort: the sort key order holds, and whenever the keys tie (`keep` holds in
both directions) the original order `Q` is preserved. -/
def keepRel (keep : α → α → Bool) (Q : α → α → Prop) (a b : α) : Prop :=
  keep a b = true ∧ (keep b a = true → Q a b)

theorem pairwise_insertKeep (keep : α → α → Bool) (Q : α → α → Prop)
    (htot : ∀ a b, keep a b = true ∨ keep b a = true)
    (htrans : ∀ a b c, keep a b = true → keep b c = true → keep a c = true)
    (x : α) :
    ∀ (acc : List α), acc.Pairwise (keepRel keep Q) → (∀ y ∈ acc, Q y x) →
      (insertKeep keep x acc).Pairwise (keepRel keep Q) := by
  intro acc
  induction acc with
  | nil => intro _ _; simp [insertKeep]
  | cons y ys ih =>
    intro hacc hQ
    rw [List.pairwise_cons] at hacc
    by_cases h : keep y x = true
    · simp only [insertKeep, h, if_pos]
      rw [List.pairwise_cons]
      refine ⟨?_, ih hacc.2 (fun z hz => hQ z (List.mem_cons_of_mem y hz))⟩
      intro z hz
      rcases (mem_insertKeep keep x z ys).1 hz with rfl | hzys
      · exact ⟨h, fun _ => hQ y (List.mem_cons_self y ys)⟩
      · exact hacc.1 z hzys
    · simp only [insertKeep, h, if_neg, Bool.not_eq_true]
      rw [List.pairwise_cons]
      have hxy : keep x y = true := by
        rcases htot x y with h1 | h1
        · exact h1
        · exact absurd h1 (by simp [h])
      refine ⟨?_, List.pairwise_cons.2 hacc⟩
      intro z hz
      rcases List.mem_cons.1 hz with rfl | hzys
      · exact ⟨hxy, fun hk => absurd hk (by simp [h])⟩
      · have hyz : keep y z = true := (hacc.1 z hzys).1
        refine ⟨htrans x y z hxy hyz, fun hk => ?_⟩
        exact absurd (htrans y z x hyz hk) (by simpa using h)

theorem pairwise_stableSortKeep (keep : α → α → Bool) (Q : α → α → Prop)
    (htot : ∀ a b, keep a b = true ∨ keep b a = true)
    (htrans : ∀ a b c, keep a b = true → keep b c = true → keep a c = true) :
    ∀ (l acc : List α), l.Pairwise Q → acc.Pairwise (keepRel keep Q) →
      (∀ y ∈ acc, ∀ x ∈ l, Q y x) →
      (l.foldl (fun acc x => insertKeep keep x acc) acc).Pairwise (keepRel keep Q) := by
  intro l
  induction l with
  | nil => intro acc _ hacc _; simpa using hacc
  | cons x xs ih =>
    intro acc hl hacc hQ
    rw [List.pairwise_cons] at hl
    simp only [List.foldl_cons]
    refine ih _ hl.2 (pairwise_insertKeep keep Q htot htrans x acc hacc
      (fun y hy => hQ y hy x (List.mem_cons_self x xs))) ?_
    intro y hy z hz
    rcases (mem_insertKeep keep x y acc).1 hy with rfl | hyacc
    · exact hl.1 z hz
    · exact hQ y hyacc z (List.mem_cons_of_mem x hz)

theorem stableSortKeep_pairwise (keep : α → α → Bool) (Q : α → α → Prop)
    (htot : ∀ a b, keep a b = true ∨ keep b a = true)
    (htrans : ∀ a b c, keep a b = true → keep b c = true → keep a c = true)
    (l : List α) (hl : l.Pairwise Q) :
    (stableSortKeep keep l).Pairwise (keepRel keep Q) := by
  exact pairwise_stableSortKeep keep Q htot htrans l [] hl (by simp) (by simp)

theorem findIdx_append_of_none (p : α → Bool) (l1 l2 : List α)
    (h : ∀ a ∈ l1, p a = false) :
    (l1 ++ l2).findIdx p = l1.length + l2.findIdx p := by
  induction l1 with
  | nil => simp
  | cons x xs ih =>
    have hx : p x = false := h x (List.mem_cons_self x xs)
    simp only [List.cons_append, List.findIdx_cons, hx, cond_false, List.length_cons]
    rw [ih (fun a ha => h a (List.mem_cons_of_mem x ha))]
    omega

/-! ## Result aggregation — `group_by_patent` in `app/api/search_design.py`

A raw Milvus hit carries the primary key, the patent id, the page index
inside the patent, file references, the similarity score and the
patent-level metadata fields returned as `output_fields`.  `title` stands
for the metadata block captured once per group from the first hit (the
remaining metadata fields are copied verbatim from the same first hit and
add nothing to the claims). -/

structure Hit where
  hid : Nat
  patent_id : String
  image_index : Nat
  file_name : String
  file_path : String
  score : Int
  title : String
deriving DecidableEq, Repr

structure Page where
  hid : Nat
  image_index : Nat
  file_name : String
  file_path : String
  score : Int
deriving DecidableEq, Repr

def Hit.toPage (h : Hit) : Page :=
  { hid := h.hid, image_index := h.image_index, file_name := h.file_name,
    file_path := h.file_path, score := h.score }

/-- One entry of the `defaultdict` in `group_by_patent`: the pages collected
so far for a patent id, plus the metadata captured from the first hit for
that patent (set once, never overwritten). -/
structure Bucket where
  patent_id : String
  firstHit : Hit
  pages : List Page
deriving DecidableEq, Repr

/-- One iteration of the `for r in results` loop of `group_by_patent`:
append the page to the patent's bucket, creating the bucket (and capturing
the metadata) on the first occurrence of the patent id.  Python dicts keep
insertion order, so the bucket list order is first-seen order. -/
def addHit (bs : List Bucket) (h : Hit) : List Bucket :=
  if bs.any (fun b => b.patent_id == h.patent_id) then
    bs.map (fun b =>
      if b.patent_id == h.patent_id then
        { b with pages := b.pages ++ [h.toPage] }
      else b)
  else
    bs ++ [{ patent_id := h.patent_id, firstHit := h, pages := [h.toPage] }]

def buildBuckets (hits : List Hit) : List Bucket :=
  hits.foldl addHit []

structure GroupedResult where
  patent_id : String
  pages : List Page
  max_score : Int
  title : String
deriving DecidableEq, Repr

/-- `max(p["score"] for p in pages)` — a bucket always holds at least one
page, so the `[]` case is unreachable. -/
def maxScoreOf : List Page → Int
  | [] => 0
  | p :: ps => ps.foldl (fun m q => max m q.score) p.score

/-- `sorted(data["pages"], key=lambda x: x["image_index"])` — Python's
`sorted` is a stable ascending sort. -/
def sortPages (pages : List Page) : List Page :=
  stableSortKeep (fun p q => decide (p.image_index ≤ q.image_index)) pages

def Bucket.toResult (b : Bucket) : GroupedResult :=
  let pages := sortPages b.pages
  { patent_id := b.patent_id, pages := pages, max_score := maxScoreOf pages,
    title := b.firstHit.title }

/-- `result_list.sort(key=lambda x: x["max_score"], reverse=True)` —
Python's stable sort with a reversed key comparison: an already placed
group keeps its position in front of a newcomer whenever its key is
greater *or equal*. -/
def sortGroups (gs : List GroupedResult) : List GroupedResult :=
  stableSortKeep (fun g1 g2 => decide (g2.max_score ≤ g1.max_score)) gs

def group_by_patent (hits : List Hit) : List GroupedResult :=
  sortGroups ((buildBuckets hits).map Bucket.toResult)

/-- Index of the first hit for a given patent id in the raw hit list. -/
def firstIdx (hits : List Hit) (pid : String) : Nat :=
  hits.findIdx (fun h => h.patent_id == pid)

theorem pairwise_trivial (l : List α) : l.Pairwise (fun _ _ => True) := by
  induction l with
  | nil => exact List.Pairwise.nil
  | cons x xs ih => exact List.Pairwise.cons (fun _ _ => trivial) ih

/-- The bucket list produced by the grouping loop is ordered by the first
occurrence of each patent id in the raw hit list. -/
theorem buckets_pairwise_aux (full : List Hit) :
    ∀ (suf pre : List Hit) (B : List Bucket), full = pre ++ suf →
      B.Pairwise (fun b1 b2 => firstIdx full b1.patent_id < firstIdx full b2.patent_id) →
      (∀ b ∈ B, firstIdx full b.patent_id < pre.length) →
      (∀ h2 ∈ pre, ∃ b ∈ B, b.patent_id = h2.patent_id) →
      (suf.foldl addHit B).Pairwise
        (fun b1 b2 => firstIdx full b1.patent_id < firstIdx full b2.patent_id) := by
  intro suf
  induction suf with
  | nil => intro pre B _ inv1 _ _; simpa using inv1
  | cons x rest ih =>
    intro pre B hfull inv1 inv2 inv3
    simp only [List.foldl_cons]
    have hfull' : full = (pre ++ [x]) ++ rest := by simpa using hfull
    by_cases hmatch : B.any (fun b => b.patent_id == x.patent_id) = true
    · -- the patent id already has a bucket: append the page in place
      have hBx : addHit B x = B.map (fun b =>
          if b.patent_id == x.patent_id then
            { b with pages := b.pages ++ [x.toPage] }
          else b) := by
        simp [addHit, hmatch]
      set upd : Bucket → Bucket := fun b =>
        if b.patent_id == x.patent_id then
          { b with pages := b.pages ++ [x.toPage] }
        else b with hupd
      have hpid : ∀ b : Bucket, (upd b).patent_id = b.patent_id := by
        intro b
        simp only [hupd]
        by_cases hb : (b.patent_id == x.patent_id) = true
        · rw [if_pos hb]
        · rw [if_neg hb]
      refine ih (pre ++ [x]) (addHit B x) hfull' ?_ ?_ ?_
      · rw [hBx, List.pairwise_map]
        exact inv1.imp (by intro a b hab; simpa [hpid] using hab)
      · intro b hb
        rw [hBx, List.mem_map] at hb
        obtain ⟨b0, hb0, rfl⟩ := hb
        have := inv2 b0 hb0
        simp only [hpid, List.length_append, List.length_cons, List.length_nil]
        omega
      · intro h2 hh2
        rcases List.mem_append.1 hh2 with hh2 | hh2
        · obtain ⟨b0, hb0, hb0eq⟩ := inv3 h2 hh2
          exact ⟨upd b0, by rw [hBx]; exact List.mem_map_of_mem upd hb0,
            by rw [hpid]; exact hb0eq⟩
        · have hx : h2 = x := by simpa using hh2
          subst hx
          obtain ⟨b0, hb0, hb0eq⟩ := List.any_eq_true.1 hmatch
          exact ⟨upd b0, by rw [hBx]; exact List.mem_map_of_mem upd hb0,
            by rw [hpid]; exact eq_of_beq hb0eq⟩
    · -- first occurrence of the patent id: a fresh bucket is appended
      have hBx : addHit B x =
          B ++ [{ patent_id := x.patent_id, firstHit := x, pages := [x.toPage] }] := by
        simp [addHit, hmatch]
      have hnotpre : ∀ h2 ∈ pre, (h2.patent_id == x.patent_id) = false := by
        intro h2 hh2
        by_contra hcon
        have heq : h2.patent_id = x.patent_id := by
          have := Bool.not_eq_false _ |>.mp hcon
          exact eq_of_beq this
        obtain ⟨b0, hb0, hb0eq⟩ := inv3 h2 hh2
        exact hmatch (List.any_eq_true.2 ⟨b0, hb0, by simp [hb0eq, heq]⟩)
      have hxidx : firstIdx full x.patent_id = pre.length := by
        rw [hfull, firstIdx, findIdx_append_of_none _ _ _ hnotpre]
        simp [List.findIdx_cons]
      refine ih (pre ++ [x]) (addHit B x) hfull' ?_ ?_ ?_
      · rw [hBx, List.pairwise_append]
        refine ⟨inv1, List.pairwise_singleton _ _, ?_⟩
        intro b hb b' hb'
        have hb'eq : b' = { patent_id := x.patent_id, firstHit := x, pages := [x.toPage] } := by
          simpa using hb'
        subst hb'eq
        simpa [hxidx] using inv2 b hb
      · intro b hb
        rw [hBx, List.mem_append] at hb
        simp only [List.length_append, List.length_cons, List.length_nil]
        rcases hb with hb | hb
        · have := inv2 b hb; omega
        · have hbeq : b = { patent_id := x.patent_id, firstHit := x, pages := [x.toPage] } := by
            simpa using hb
          subst hbeq
          simpa [hxidx] using by omega
      · intro h2 hh2
        rcases List.mem_append.1 hh2 with hh2 | hh2
        · obtain ⟨b0, hb0, hb0eq⟩ := inv3 h2 hh2
          exact ⟨b0, by rw [hBx]; exact List.mem_append_left _ hb0, hb0eq⟩
        · have hx : h2 = x := by simpa using hh2
          subst hx
          exact ⟨_, by rw [hBx]; exact List.mem_append_right _ (List.mem_singleton_self _), rfl⟩

theorem buildBuckets_pairwise (hits : List Hit) :
    (buildBuckets hits).Pairwise
      (fun b1 b2 => firstIdx hits b1.patent_id < firstIdx hits b2.patent_id) :=
  buckets_pairwise_aux hits hits [] [] rfl (List.Pairwise.nil) (by simp) (by simp)

/-- C4: in the output of `group_by_patent`, groups are ordered by max score
descending, and two groups with equal max score appear in the order in
which their patent ids first occur in the raw hit list (an artifact of the
stable sort, not a second sort key). -/
theorem groups_sorted_desc_ties_first_seen (hits : List Hit) :
    (group_by_patent hits).Pairwise (fun g1 g2 =>
      g2.max_score ≤ g1.max_score ∧
      (g1.max_score = g2.max_score →
        firstIdx hits g1.patent_id < firstIdx hits g2.patent_id)) := by
  have hQ : ((buildBuckets hits).map Bucket.toResult).Pairwise
      (fun r1 r2 => firstIdx hits r1.patent_id < firstIdx hits r2.patent_id) := by
    rw [List.pairwise_map]
    refine (buildBuckets_pairwise hits).imp ?_
    intro a b hab
    simpa [Bucket.toResult] using hab
  have h := stableSortKeep_pairwise
      (fun g1 g2 : GroupedResult => decide (g2.max_score ≤ g1.max_score))
      (fun r1 r2 : GroupedResult =>
        firstIdx hits r1.patent_id < firstIdx hits r2.patent_id)
      (by
        intro a b
        rcases le_total b.max_score a.max_score with hle | hle
        · exact Or.inl (decide_eq_true hle)
        · exact Or.inr (decide_eq_true hle))
      (by
        intro a b c hab hbc
        exact decide_eq_true (le_trans (of_decide_eq_true hbc) (of_decide_eq_true hab)))
      _ hQ
  refine h.imp ?_
  rintro a b ⟨h1, h2⟩
  exact ⟨of_decide_eq_true h1,
    fun heq => h2 (decide_eq_true (le_of_eq heq))⟩

/-- C5: every group's page list is sorted ascending by page/image index,
whatever the order of the raw hits. -/
theorem group_pages_sorted_asc (hits : List Hit) (g : GroupedResult)
    (hg : g ∈ group_by_patent hits) :
    g.pages.Pairwise (fun p1 p2 => p1.image_index ≤ p2.image_index) := by
  rw [group_by_patent, sortGroups] at hg
  obtain ⟨b, _, rfl⟩ := List.mem_map.1 ((mem_stableSortKeep _ _ _).1 hg)
  have h := stableSortKeep_pairwise
      (fun p q : Page => decide (p.image_index ≤ q.image_index))
      (fun _ _ : Page => True)
      (by
        intro a b
        rcases Nat.le_total a.image_index b.image_index with hle | hle
        · exact Or.inl (decide_eq_true hle)
        · exact Or.inr (decide_eq_true hle))
      (by
        intro a b c hab hbc
        exact decide_eq_true (le_trans (of_decide_eq_true hab) (of_decide_eq_true hbc)))
      b.pages (pairwise_trivial _)
  show (Bucket.toResult b).pages.Pairwise _
  simp only [Bucket.toResult, sortPages]
  exact h.imp (fun hab => of_decide_eq_true hab.1)

/-- Witness for C5 at a concrete hit list: the pages of patent `X` arrive
as indices `[1, 0]` and come out sorted ascending. -/
theorem group_pages_sorted_asc_witness :
    ({ patent_id := "X",
       pages := [{ hid := 0, image_index := 0, file_name := "a",
                   file_path := "pa", score := 80 },
                 { hid := 1, image_index := 1, file_name := "b",
                   file_path := "pb", score := 90 }],
       max_score := 90, title := "T" } : GroupedResult) ∈
      group_by_patent [⟨1, "X", 1, "b", "pb", 90, "T"⟩, ⟨0, "X", 0, "a", "pa", 80, "T"⟩] ∧
    ({ patent_id := "X",
       pages := [{ hid := 0, image_index := 0, file_name := "a",
                   file_path := "pa", score := 80 },
                 { hid := 1, image_index := 1, file_name := "b",
                   file_path := "pb", score := 90 }],
       max_score := 90, title := "T" } : GroupedResult).pages.Pairwise
      (fun p1 p2 => p1.image_index ≤ p2.image_index) :=
  ⟨by decide, group_pages_sorted_asc
    [⟨1, "X", 1, "b", "pb", 90, "T"⟩, ⟨0, "X", 0, "a", "pa", 80, "T"⟩] _ (by decide)⟩

/-! ## Query service — `DesignPatentService.search` in
`app/services/design_patent_service.py`

The Milvus call `collection.search(..., limit=top_k * 2, ...)` is the
store's ranked retrieval: the external store returns at most `top_k * 2`
hits ranked by score descending.  The service then filters with
`hit.score >= min_score` in a loop and returns `filtered[:top_k]`. -/

/-- External store contract for `collection.search` with `limit = top_k*2`:
the matching rows ranked by score descending, truncated to `top_k * 2`. -/
def milvusRawSearch (rows : List Hit) (top_k : Nat) : List Hit :=
  (stableSortKeep (fun h1 h2 => decide (h2.score ≤ h1.score)) rows).take (top_k * 2)

/-- The `for hit in results[0]: if hit.score >= min_score: filtered.append(hit)`
loop of the service. -/
def scoreFilterLoop (raw : List Hit) (min_score : Int) : List Hit :=
  raw.foldl (fun acc h => if min_score ≤ h.score then acc ++ [h] else acc) []

def DesignPatentService.search (rows : List Hit) (top_k : Nat) (min_score : Int) :
    List Hit :=
  (scoreFilterLoop (milvusRawSearch rows top_k) min_score).take top_k

/-- The endpoint `search_design_patents` groups only after the service has
filtered (`group_by_patent(results)` on the service's return value). -/
def searchThenGroup (rows : List Hit) (top_k : Nat) (min_score : Int) :
    List GroupedResult :=
  group_by_patent (DesignPatentService.search rows top_k min_score)

theorem scoreFilterLoop_eq_filter (m : Int) :
    ∀ (l acc : List Hit),
      l.foldl (fun acc h => if m ≤ h.score then acc ++ [h] else acc) acc =
        acc ++ l.filter (fun h => decide (m ≤ h.score)) := by
  intro l
  induction l with
  | nil => simp
  | cons h hs ih =>
    intro acc
    by_cases hm : m ≤ h.score
    · simp [ih, hm]
    · simp [ih, hm]

/-- C6: the `min_score` threshold is applied as `hit_score ≥ min_score`
after the store's raw retrieval of at most `2*top_k` candidates and before
grouping; a hit scoring exactly `min_score` passes the filter, one
strictly below is excluded, and at most `top_k` hits are returned. -/
theorem min_score_filter_semantics (rows : List Hit) (top_k : Nat) (min_score : Int) :
    DesignPatentService.search rows top_k min_score =
      ((milvusRawSearch rows top_k).filter
        (fun h => decide (min_score ≤ h.score))).take top_k ∧
    (milvusRawSearch rows top_k).length ≤ top_k * 2 ∧
    (DesignPatentService.search rows top_k min_score).length ≤ top_k ∧
    (∀ h ∈ milvusRawSearch rows top_k, min_score ≤ h.score →
      h ∈ (milvusRawSearch rows top_k).filter (fun h => decide (min_score ≤ h.score))) ∧
    (∀ h ∈ DesignPatentService.search rows top_k min_score, min_score ≤ h.score) ∧
    searchThenGroup rows top_k min_score =
      group_by_patent (DesignPatentService.search rows top_k min_score) := by
  have hloop : DesignPatentService.search rows top_k min_score =
      ((milvusRawSearch rows top_k).filter
        (fun h => decide (min_score ≤ h.score))).take top_k := by
    rw [DesignPatentService.search, scoreFilterLoop, scoreFilterLoop_eq_filter]
    simp
  refine ⟨hloop, List.length_take_le _ _, ?_, ?_, ?_, rfl⟩
  · rw [hloop]; exact List.length_take_le _ _
  · intro h hmem hscore
    exact List.mem_filter.2 ⟨hmem, decide_eq_true hscore⟩
  · intro h hmem
    rw [hloop] at hmem
    have := List.mem_filter.1 (List.mem_of_mem_take hmem)
    exact of_decide_eq_true this.2

/-- Witness for C6 at the spec's end-to-end scenario C (scores scaled by
100): with threshold 85 the hit scoring exactly 90 stays, the one scoring
80 is dropped, and no more than `top_k` hits come back. -/
theorem min_score_filter_semantics_witness :
    (⟨2, "Y", 0, "y0", "py", 95, "TY"⟩ : Hit) ∈
      milvusRawSearch
        [⟨0, "X", 1, "x1", "px", 90, "TX"⟩, ⟨1, "X", 0, "x0", "px", 80, "TX"⟩,
         ⟨2, "Y", 0, "y0", "py", 95, "TY"⟩] 10 ∧
    (85 : Int) ≤ (95 : Int) ∧
    (⟨2, "Y", 0, "y0", "py", 95, "TY"⟩ : Hit) ∈
      (milvusRawSearch
        [⟨0, "X", 1, "x1", "px", 90, "TX"⟩, ⟨1, "X", 0, "x0", "px", 80, "TX"⟩,
         ⟨2, "Y", 0, "y0", "py", 95, "TY"⟩] 10).filter
        (fun h => decide ((85 : Int) ≤ h.score)) :=
  ⟨by decide, by decide,
    (min_score_filter_semantics
      [⟨0, "X", 1, "x1", "px", 90, "TX"⟩, ⟨1, "X", 0, "x0", "px", 80, "TX"⟩,
       ⟨2, "Y", 0, "y0", "py", 95, "TY"⟩] 10 85).2.2.2.1
      ⟨2, "Y", 0, "y0", "py", 95, "TY"⟩ (by decide) (by decide)⟩

/-! ## Filter expression construction (`DesignPatentService.search`,
lines 77–96)

The service builds `filters` with three `if <param>:` appends (Python
truthiness: `None` and the empty string add nothing), joins them with
`" and "`, and passes `None` when no filter was supplied.  We model the
expression as the list of its atomic predicates; the store evaluates the
joined expression as the conjunction of the atoms. -/

/-- Does `pat` occur at the head of `l`? (helper for SQL-`like` matching) -/
def leadMatch : List Char → List Char → Bool
  | _, [] => true
  | [], _ :: _ => false
  | c :: cs, p :: ps => c == p && leadMatch cs ps

/-- Does `pat` occur anywhere inside `l`? -/
def subOccurs : List Char → List Char → Bool
  | [], pat => leadMatch [] pat
  | c :: cs, pat => leadMatch (c :: cs) pat || subOccurs cs pat

/-- Milvus `field like "%kw%"`: substring match. -/
def strLike (field kw : String) : Bool :=
  subOccurs field.toList kw.toList

inductive FilterPred where
  | titleLike (kw : String)
  | locEq (c : String)
  | applicantLike (a : String)
deriving DecidableEq, Repr

/-- The scalar fields of a stored row that filter expressions mention. -/
structure MetaRow where
  title : String
  loc_class : String
  applicant_name : String
deriving DecidableEq, Repr

def evalFilter (row : MetaRow) : FilterPred → Bool
  | .titleLike kw => strLike row.title kw
  | .locEq c => row.loc_class == c
  | .applicantLike a => strLike row.applicant_name a

/-- The three `if <param>: filters.append(...)` statements, in order. -/
def buildFilters (keyword loc_class applicant : Option String) : List FilterPred :=
  (match keyword with
   | some s => if s == "" then [] else [FilterPred.titleLike s]
   | none => []) ++
  (match loc_class with
   | some s => if s == "" then [] else [FilterPred.locEq s]
   | none => []) ++
  (match applicant with
   | some s => if s == "" then [] else [FilterPred.applicantLike s]
   | none => [])

/-- `expr = " and ".join(filters) if filters else None` -/
def exprOf (fs : List FilterPred) : Option (List FilterPred) :=
  if fs.isEmpty then none else some fs

/-- Store-side evaluation: `expr=None` imposes no constraint; a joined
expression is the AND of its atoms. -/
def matchesExpr (e : Option (List FilterPred)) (row : MetaRow) : Bool :=
  match e with
  | none => true
  | some fs => fs.all (evalFilter row)

/-- Spec-side reading of one optional filter: absent (or empty) means no
constraint. -/
def optConstraint (f : String → Bool) : Option String → Bool
  | none => true
  | some s => if s == "" then true else f s

/-- C7: the built filter expression is satisfied exactly when each
supplied predicate is satisfied (logical AND), an absent or empty
parameter imposing no constraint — in particular, with no filters at all
every row matches (never a match-nothing expression). -/
theorem filter_expr_and_semantics (keyword loc_class applicant : Option String)
    (row : MetaRow) :
    matchesExpr (exprOf (buildFilters keyword loc_class applicant)) row =
      (optConstraint (fun s => strLike row.title s) keyword &&
       optConstraint (fun s => row.loc_class == s) loc_class &&
       optConstraint (fun s => strLike row.applicant_name s) applicant) := by
  rcases keyword with _ | k <;> rcases loc_class with _ | c <;>
    rcases applicant with _ | a <;>
    simp only [buildFilters, optConstraint] <;>
    (try split_ifs) <;>
    simp_all [exprOf, matchesExpr, evalFilter, List.all_append, Bool.and_assoc]

/-! ## Ingestion pipeline — `scripts/import_design_patents_full.py`

One image record of the ingestion run is identified by its patent id and
file name.  The external world (local file system, MinIO, the DINOv2
extractor, Milvus insert acceptance) is a deterministic environment:
`outcome r` says how far the per-image steps get, `insertable r` says
whether the vector store accepts the record's values on insert. -/

structure ImgRec where
  patent_id : String
  file_name : String
deriving DecidableEq, Repr

/-- `dedup_key = f"{patent.patent_id}_{img_file}"` (line 238), the same
encoding `get_existing_keys` uses (line 148). -/
def dedupKey (r : ImgRec) : String :=
  r.patent_id ++ "_" ++ r.file_name

inductive ImgOutcome where
  | missing      -- `not os.path.exists(local_path)` (line 246)
  | uploadFail   -- `upload_image_to_minio` returned a falsy url (line 255)
  | procError    -- an exception inside the `try` block (line 302)
  | ok           -- upload and embedding succeed
deriving DecidableEq, Repr

structure IngestEnv where
  outcome : ImgRec → ImgOutcome
  insertable : ImgRec → Bool

/-- One line of `failed_records`: `f"{patent_id},{file_name},{reason}"`. -/
def ledgerEntry (r : ImgRec) (reason : String) : String :=
  r.patent_id ++ "," ++ r.file_name ++ "," ++ reason

/-- `insert_batch(collection, batch_data)` (lines 344–388): one columnar
insert — which Milvus rejects as a whole when any record carries an
incompatible value — and, on failure, a per-record fallback.  Returns the
records that landed in the store and the boolean result of the function
(true only when every record of the batch is durable). -/
def insert_batch (env : IngestEnv) (batch : List ImgRec) : List ImgRec × Bool :=
  if batch.all env.insertable then
    (batch, true)
  else
    let succ := batch.filter env.insertable
    (succ, succ.length == batch.length)

structure RunState where
  existing : List String
  store : List ImgRec
  batch : List ImgRec
  success : Nat
  skip : Nat
  fail : Nat
  processed : Nat
  ledger : List String
  gcFires : List Nat
deriving DecidableEq, Repr

/-- The flush logic of `main` (lines 290–295 for a full batch, 315–319 for
the final partial batch): call `insert_batch` and, when it returns false,
append one ledger line per record of the whole batch. -/
def flushBatch (env : IngestEnv) (st : RunState) : RunState :=
  if st.batch.isEmpty then st
  else
    let res := insert_batch env st.batch
    { st with
      store := st.store ++ res.1,
      ledger := st.ledger ++
        (if res.2 then [] else st.batch.map (fun r => ledgerEntry r "插入失败")),
      batch := [] }

/-- `if len(batch_data) >= INSERT_BATCH_SIZE: ...` (lines 290–295): flush
when the batch has reached capacity 16. -/
def batchCheck (env : IngestEnv) (st : RunState) : RunState :=
  if 16 ≤ st.batch.length then flushBatch env st else st

/-- `if processed_images % GC_INTERVAL == 0: clear_gpu_memory(); gc.collect()`
(lines 297–300): the periodic reclamation pass, reached only at the end of
the success path. -/
def gcCheck (st : RunState) : RunState :=
  if st.processed % 100 == 0 then { st with gcFires := st.gcFires ++ [st.processed] }
  else st

/-- The body of the `for img_idx, img_file in enumerate(patent.images)`
loop (lines 233–305): count the image, dedup-check, run the per-image
steps, flush at batch capacity 16, and — only when the success path ran to
its end — fire the periodic GC pass at every 100th processed image. -/
def processImage (env : IngestEnv) (st : RunState) (r : ImgRec) : RunState :=
  let st := { st with processed := st.processed + 1 }
  if dedupKey r ∈ st.existing then
    { st with skip := st.skip + 1 }
  else
    match env.outcome r with
    | .missing =>
      { st with fail := st.fail + 1,
                ledger := st.ledger ++ [ledgerEntry r "图片不存在"] }
    | .uploadFail =>
      { st with fail := st.fail + 1,
                ledger := st.ledger ++ [ledgerEntry r "MinIO上传失败"] }
    | .procError =>
      { st with fail := st.fail + 1,
                ledger := st.ledger ++ [ledgerEntry r "处理失败"] }
    | .ok =>
      gcCheck (batchCheck env
        { st with batch := st.batch ++ [r], success := st.success + 1 })

structure Patent where
  patent_id : String
  images : List String
deriving DecidableEq, Repr

/-- The images of the corpus in traversal order (outer loop over patents,
inner loop over each patent's image list). -/
def corpusImages (corpus : List Patent) : List ImgRec :=
  (corpus.map (fun p => p.images.map (fun f => ImgRec.mk p.patent_id f))).join

def initState (existing : List String) (store0 : List ImgRec) : RunState :=
  { existing := existing, store := store0, batch := [], success := 0, skip := 0,
    fail := 0, processed := 0, ledger := [], gcFires := [] }

/-- One ingestion run in append mode against a store currently holding
`store0`: `existing_keys = get_existing_keys(collection)` (the complete
key set, see `get_existing_keys` below), the per-image loop, and the final
flush of the partially filled batch. -/
def runIngest (env : IngestEnv) (corpus : List Patent) (store0 : List ImgRec) :
    RunState :=
  flushBatch env
    ((corpusImages corpus).foldl (processImage env)
      (initState (store0.map dedupKey) store0))

/-- Did the per-image success path run to its end for `r`? (not a dedup
hit and no failing step) -/
def accepted (env : IngestEnv) (existing : List String) (r : ImgRec) : Bool :=
  !(decide (dedupKey r ∈ existing)) && (env.outcome r == ImgOutcome.ok)

/-- The processed-image counts at which the GC pass fires, starting from
count `n`: the count is a multiple of 100 and the image completed the
success path. -/
def gcSpec (env : IngestEnv) (existing : List String) : Nat → List ImgRec → List Nat
  | _, [] => []
  | n, r :: rest =>
    (if accepted env existing r && ((n + 1) % 100 == 0) then [n + 1] else []) ++
    gcSpec env existing (n + 1) rest

theorem insert_batch_fst (env : IngestEnv) (b : List ImgRec) :
    (insert_batch env b).1 = b.filter env.insertable := by
  by_cases h : b.all env.insertable = true
  · have : b.filter env.insertable = b :=
      List.filter_eq_self.2 (fun a ha => List.all_eq_true.1 h a ha)
    simp [insert_batch, h, this]
  · simp [insert_batch, h]

theorem flushBatch_inv (env : IngestEnv) (st : RunState) :
    (flushBatch env st).existing = st.existing ∧
    (flushBatch env st).processed = st.processed ∧
    (flushBatch env st).skip = st.skip ∧
    (flushBatch env st).gcFires = st.gcFires ∧
    (flushBatch env st).store ++ (flushBatch env st).batch.filter env.insertable =
      st.store ++ st.batch.filter env.insertable := by
  by_cases h : st.batch.isEmpty
  · simp [flushBatch, h]
  · simp [flushBatch, h, insert_batch_fst]

theorem batchCheck_inv (env : IngestEnv) (st : RunState) :
    (batchCheck env st).existing = st.existing ∧
    (batchCheck env st).processed = st.processed ∧
    (batchCheck env st).skip = st.skip ∧
    (batchCheck env st).gcFires = st.gcFires ∧
    (batchCheck env st).store ++ (batchCheck env st).batch.filter env.insertable =
      st.store ++ st.batch.filter env.insertable := by
  by_cases h : 16 ≤ st.batch.length
  · simp only [batchCheck, if_pos h]
    exact flushBatch_inv env st
  · simp [batchCheck, h]

theorem gcCheck_inv (st : RunState) :
    (gcCheck st).existing = st.existing ∧
    (gcCheck st).processed = st.processed ∧
    (gcCheck st).skip = st.skip ∧
    (gcCheck st).store = st.store ∧
    (gcCheck st).batch = st.batch ∧
    (gcCheck st).gcFires =
      st.gcFires ++ (if st.processed % 100 == 0 then [st.processed] else []) := by
  by_cases h : (st.processed % 100 == 0) = true <;> simp [gcCheck, h]

/-- Closed form for the per-image loop: the dedup set never changes, every
image counts as processed, the records that reach the store (counting the
still-unflushed batch) are exactly the accepted and insertable ones in
order, skips count the dedup hits, and GC passes follow `gcSpec`. -/
theorem run_fold_closed (env : IngestEnv) :
    ∀ (images : List ImgRec) (st : RunState),
      (images.foldl (processImage env) st).existing = st.existing ∧
      (images.foldl (processImage env) st).processed = st.processed + images.length ∧
      (images.foldl (processImage env) st).store ++
          (images.foldl (processImage env) st).batch.filter env.insertable =
        st.store ++
          (st.batch ++ images.filter (accepted env st.existing)).filter env.insertable ∧
      (images.foldl (processImage env) st).skip =
        st.skip + (images.filter (fun r => decide (dedupKey r ∈ st.existing))).length ∧
      (images.foldl (processImage env) st).gcFires =
        st.gcFires ++ gcSpec env st.existing st.processed images := by
  intro images
  induction images with
  | nil => intro st; simp [gcSpec]
  | cons r rest ih =>
    intro st
    have hstep :
        (processImage env st r).existing = st.existing ∧
        (processImage env st r).processed = st.processed + 1 ∧
        (processImage env st r).store ++
            (processImage env st r).batch.filter env.insertable =
          st.store ++
            (st.batch ++ (if accepted env st.existing r then [r] else [])).filter
              env.insertable ∧
        (processImage env st r).skip =
          st.skip + (if dedupKey r ∈ st.existing then 1 else 0) ∧
        (processImage env st r).gcFires =
          st.gcFires ++
            (if accepted env st.existing r && ((st.processed + 1) % 100 == 0)
             then [st.processed + 1] else []) := by
      by_cases hc : dedupKey r ∈ st.existing
      · simp [processImage, hc, accepted]
      · rcases ho : env.outcome r with _ | _ | _ | _
        · simp [processImage, hc, ho, accepted]
        · simp [processImage, hc, ho, accepted]
        · simp [processImage, hc, ho, accepted]
        · have hacc : accepted env st.existing r = true := by simp [accepted, hc, ho]
          have hred : processImage env st r =
              gcCheck (batchCheck env
                { st with processed := st.processed + 1,
                          batch := st.batch ++ [r], success := st.success + 1 }) := by
            simp [processImage, hc, ho]
          rw [hred]
          have hb := batchCheck_inv env
            { st with processed := st.processed + 1,
                      batch := st.batch ++ [r], success := st.success + 1 }
          have hg := gcCheck_inv (batchCheck env
            { st with processed := st.processed + 1,
                      batch := st.batch ++ [r], success := st.success + 1 })
          refine ⟨?_, ?_, ?_, ?_, ?_⟩
          · rw [hg.1, hb.1]
          · rw [hg.2.1, hb.2.1]
          · rw [hg.2.2.2.1, hg.2.2.2.2.1, hb.2.2.2.2]
            simp [hacc]
          · rw [hg.2.2.1, hb.2.2.1]
            simp [hc]
          · rw [hg.2.2.2.2.2, hb.2.2.2.1, hb.2.1]
            simp [hacc]
    obtain ⟨h1, h2, h3, h4, h5⟩ := hstep
    have hrest := ih (processImage env st r)
    rw [List.foldl_cons] at *
    refine ⟨by rw [hrest.1, h1], ?_, ?_, ?_, ?_⟩
    · rw [hrest.2.1, h2]
      simp [List.length_cons]
      omega
    · rw [hrest.2.2.1, h1, List.filter_append, ← List.append_assoc, h3]
      by_cases ha : accepted env st.existing r = true <;>
        by_cases hi : env.insertable r = true <;>
        simp [ha, hi, List.filter_cons, List.filter_append, List.append_assoc]
    · rw [hrest.2.2.2.1, h1, h4]
      by_cases hcon : dedupKey r ∈ st.existing <;>
        simp [hcon, List.filter_cons] <;> omega
    · rw [hrest.2.2.2.2, h1, h2, h5]
      simp [gcSpec, List.append_assoc]

theorem length_filter_add_length_filter_not (p : α → Bool) (l : List α) :
    (l.filter p).length + (l.filter (fun a => !(p a))).length = l.length := by
  induction l with
  | nil => simp
  | cons a l ih =>
    by_cases h : p a = true <;> simp [List.filter_cons, h] <;> omega

theorem flushBatch_final (env : IngestEnv) (st : RunState) :
    (flushBatch env st).store = st.store ++ st.batch.filter env.insertable ∧
    (flushBatch env st).batch = [] ∧
    (flushBatch env st).existing = st.existing ∧
    (flushBatch env st).skip = st.skip ∧
    (flushBatch env st).processed = st.processed ∧
    (flushBatch env st).gcFires = st.gcFires := by
  by_cases h : st.batch.isEmpty
  · have hnil : st.batch = [] := by simpa [List.isEmpty_iff] using h
    simp [flushBatch, h, hnil]
  · simp [flushBatch, h, insert_batch_fst]

/-- Closed form for one complete ingestion run in append mode: the store
gains exactly the accepted, insertable images (in order); every dedup hit
is counted as a skip; the GC passes follow `gcSpec`. -/
theorem runIngest_closed (env : IngestEnv) (corpus : List Patent)
    (store0 : List ImgRec) :
    (runIngest env corpus store0).store =
      store0 ++ ((corpusImages corpus).filter
        (accepted env (store0.map dedupKey))).filter env.insertable ∧
    (runIngest env corpus store0).skip =
      ((corpusImages corpus).filter
        (fun r => decide (dedupKey r ∈ store0.map dedupKey))).length ∧
    (runIngest env corpus store0).processed = (corpusImages corpus).length ∧
    (runIngest env corpus store0).gcFires =
      gcSpec env (store0.map dedupKey) 0 (corpusImages corpus) := by
  have hfold := run_fold_closed env (corpusImages corpus)
    (initState (store0.map dedupKey) store0)
  have hflush := flushBatch_final env
    ((corpusImages corpus).foldl (processImage env)
      (initState (store0.map dedupKey) store0))
  rw [runIngest]
  refine ⟨?_, ?_, ?_, ?_⟩
  · rw [hflush.1]
    have h3 := hfold.2.2.1
    simp only [initState] at h3
    simpa using h3
  · rw [hflush.2.2.2.1]
    have h4 := hfold.2.2.2.1
    simpa [initState] using h4
  · rw [hflush.2.2.2.2.1]
    have h2 := hfold.2.1
    simpa [initState] using h2
  · rw [hflush.2.2.2.2.2]
    have h5 := hfold.2.2.2.2
    simpa [initState] using h5

/-- C2: re-running ingestion in append mode over the same corpus against
the same destination leaves the store unchanged — all records that landed
in the first run are dedup-skipped, all records that failed the first run
fail again — so the final record count equals the count after the first
run, and the skip counter of the second run counts exactly the images
whose key is already present. -/
theorem ingest_idempotent (env : IngestEnv) (corpus : List Patent)
    (store0 : List ImgRec) :
    (runIngest env corpus (runIngest env corpus store0).store).store =
      (runIngest env corpus store0).store ∧
    (runIngest env corpus (runIngest env corpus store0).store).store.length =
      (runIngest env corpus store0).store.length ∧
    (runIngest env corpus (runIngest env corpus store0).store).skip =
      ((corpusImages corpus).filter (fun r =>
        decide (dedupKey r ∈ (runIngest env corpus store0).store.map dedupKey))).length := by
  have h1 := runIngest_closed env corpus store0
  have h2 := runIngest_closed env corpus (runIngest env corpus store0).store
  have hnil : ((corpusImages corpus).filter
      (accepted env ((runIngest env corpus store0).store.map dedupKey))).filter
        env.insertable = [] := by
    rw [List.filter_filter]
    rw [List.filter_eq_nil_iff]
    intro a ha hcon
    have hsplit : env.insertable a = true ∧
        accepted env ((runIngest env corpus store0).store.map dedupKey) a = true := by
      simpa using hcon
    have hins := hsplit.1
    have hacc : dedupKey a ∉ (runIngest env corpus store0).store.map dedupKey ∧
        env.outcome a = ImgOutcome.ok := by
      simpa [accepted] using hsplit.2
    obtain ⟨hnotin, hok⟩ := hacc
    apply hnotin
    rw [h1.1]
    by_cases h0 : dedupKey a ∈ store0.map dedupKey
    · simp only [List.map_append, List.mem_append]
      exact Or.inl h0
    · have haccept0 : accepted env (store0.map dedupKey) a = true := by
        simp [accepted, h0, hok]
      have hmem : a ∈ ((corpusImages corpus).filter
          (accepted env (store0.map dedupKey))).filter env.insertable :=
        List.mem_filter.2 ⟨List.mem_filter.2 ⟨ha, haccept0⟩, hins⟩
      simp only [List.map_append, List.mem_append]
      exact Or.inr (List.mem_map_of_mem dedupKey hmem)
  refine ⟨?_, ?_, h2.2.1⟩
  · rw [h2.1, hnil, List.append_nil]
  · rw [h2.1, hnil, List.append_nil]

/-- C1 (amended): when a batch of 16 holds exactly one insert-incompatible
record, the per-record fallback lands the other 15 in the store, the
batch flag comes back false, and `main` then appends one failure-ledger
line for *every* record of the batch — 16 entries, not 1. -/
theorem batch_fallback_partial_failure (env : IngestEnv) (st : RunState)
    (hlen : st.batch.length = 16)
    (hbad : (st.batch.filter (fun r => !(env.insertable r))).length = 1) :
    (insert_batch env st.batch).1.length = 15 ∧
    (insert_batch env st.batch).2 = false ∧
    (flushBatch env st).store.length = st.store.length + 15 ∧
    (flushBatch env st).ledger.length = st.ledger.length + 16 := by
  have hgood : (st.batch.filter env.insertable).length = 15 := by
    have := length_filter_add_length_filter_not env.insertable st.batch
    omega
  have hex : ¬(st.batch.all env.insertable = true) := by
    intro hall
    have hnil : st.batch.filter (fun r => !(env.insertable r)) = [] := by
      rw [List.filter_eq_nil_iff]
      intro a ha
      simp [List.all_eq_true.1 hall a ha]
    rw [hnil] at hbad
    simp at hbad
  have hfst : (insert_batch env st.batch).1.length = 15 := by
    simp [insert_batch, hex, hgood]
  have hsnd : (insert_batch env st.batch).2 = false := by
    simp [insert_batch, hex, hgood, hlen]
  have hempty : st.batch.isEmpty = false := by
    cases hb : st.batch with
    | nil => rw [hb] at hlen; simp at hlen
    | cons a l => simp [hb]
  refine ⟨hfst, hsnd, ?_, ?_⟩
  · simp [flushBatch, hempty, hfst]
  · simp [flushBatch, hempty, hsnd, hlen]

/-- A deterministic environment in which the store rejects exactly the
records named `bad`. -/
def badEnv : IngestEnv :=
  { outcome := fun _ => ImgOutcome.ok,
    insertable := fun r => !(r.file_name == "bad") }

/-- A full batch of 16 records of which exactly one is insert-incompatible. -/
def badBatch : List ImgRec :=
  (List.range 15).map (fun i => { patent_id := "P", file_name := "f" ++ toString i }) ++
  [{ patent_id := "P", file_name := "bad" }]

def badState : RunState :=
  { initState [] [] with batch := badBatch }

/-- C1 (counterexample): on a batch of 16 with exactly one
insert-incompatible record, 15 records land in the store but the failure
ledger receives 16 entries for the batch — not exactly 1 as claimed. -/
theorem batch_ledger_not_single_counterexample :
    badBatch.length = 16 ∧
    (badBatch.filter (fun r => !(badEnv.insertable r))).length = 1 ∧
    (insert_batch badEnv badBatch).1.length = 15 ∧
    (flushBatch badEnv badState).ledger.length = 16 ∧
    ¬((flushBatch badEnv badState).ledger.length = 1) := by
  refine ⟨by decide, by decide, by decide, by decide, by decide⟩

/-- Witness for the amended C1 at the concrete bad batch. -/
theorem batch_fallback_partial_failure_witness :
    badState.batch.length = 16 ∧
    (badState.batch.filter (fun r => !(badEnv.insertable r))).length = 1 ∧
    (insert_batch badEnv badState.batch).1.length = 15 ∧
    (flushBatch badEnv badState).ledger.length = badState.ledger.length + 16 :=
  ⟨by decide, by decide,
    (batch_fallback_partial_failure badEnv badState (by decide) (by decide)).1,
    (batch_fallback_partial_failure badEnv badState (by decide) (by decide)).2.2.2⟩

theorem gcSpec_mem (env : IngestEnv) (E : List String) :
    ∀ (imgs : List ImgRec) (n m : Nat),
      m ∈ gcSpec env E n imgs ↔
        ∃ i, ∃ hi : i < imgs.length,
          m = n + i + 1 ∧ m % 100 = 0 ∧ accepted env E (imgs.get ⟨i, hi⟩) = true := by
  intro imgs
  induction imgs with
  | nil => intro n m; simp [gcSpec]
  | cons r rest ih =>
    intro n m
    rw [gcSpec]
    constructor
    · intro hm
      rcases List.mem_append.1 hm with hm | hm
      · by_cases hcond : (accepted env E r && ((n + 1) % 100 == 0)) = true
        · rw [if_pos hcond] at hm
          have hm1 : m = n + 1 := by simpa using hm
          rw [Bool.and_eq_true] at hcond
          refine ⟨0, by simp, by omega, ?_, ?_⟩
          · rw [hm1]
            simpa using hcond.2
          · simpa using hcond.1
        · rw [if_neg hcond] at hm
          simp at hm
      · obtain ⟨i, hi, h1, h2, h3⟩ := (ih (n + 1) m).1 hm
        refine ⟨i + 1, by simpa using Nat.succ_lt_succ hi, by omega, h2, ?_⟩
        simpa using h3
    · rintro ⟨i, hi, rfl, h2, h3⟩
      cases i with
      | zero =>
        apply List.mem_append_left
        have hcond : (accepted env E r && ((n + 1) % 100 == 0)) = true := by
          rw [Bool.and_eq_true]
          refine ⟨by simpa using h3, ?_⟩
          have : (n + 0 + 1) % 100 = 0 := h2
          simpa using this
        rw [if_pos hcond]
        simp
      | succ j =>
        apply List.mem_append_right
        refine (ih (n + 1) (n + (j + 1) + 1)).2 ⟨j, by simpa using Nat.lt_of_succ_lt_succ hi,
          by omega, by simpa using h2, by simpa using h3⟩

/-- C10 (amended): the reclamation pass fires after the m-th encountered
image exactly when m is a multiple of 100 *and* that image completed the
per-image success path; images that are dedup-skipped or that fail advance
the counter but never trigger the pass themselves. -/
theorem gc_fires_on_success_multiples (env : IngestEnv) (corpus : List Patent)
    (store0 : List ImgRec) :
    (runIngest env corpus store0).gcFires =
      gcSpec env (store0.map dedupKey) 0 (corpusImages corpus) ∧
    ∀ m, m ∈ (runIngest env corpus store0).gcFires ↔
      ∃ i, ∃ hi : i < (corpusImages corpus).length,
        m = i + 1 ∧ m % 100 = 0 ∧
        accepted env (store0.map dedupKey) ((corpusImages corpus).get ⟨i, hi⟩) = true := by
  have hclosed := (runIngest_closed env corpus store0).2.2.2
  refine ⟨hclosed, ?_⟩
  intro m
  rw [hclosed, gcSpec_mem]
  constructor
  · rintro ⟨i, hi, h1, h2, h3⟩
    exact ⟨i, hi, by omega, h2, h3⟩
  · rintro ⟨i, hi, h1, h2, h3⟩
    exact ⟨i, hi, by omega, h2, h3⟩

/-- An environment in which every per-image step succeeds and every record
is insertable. -/
def okEnv : IngestEnv :=
  { outcome := fun _ => ImgOutcome.ok, insertable := fun _ => true }

/-- One patent with 100 images `f0 … f99`. -/
def gcCorpus : List Patent :=
  [{ patent_id := "P", images := (List.range 100).map (fun i => "f" ++ toString i) }]

/-- A destination store that already holds the 100th image, so that image
is a dedup skip. -/
def gcStore0 : List ImgRec :=
  [{ patent_id := "P", file_name := "f99" }]

set_option maxRecDepth 100000 in
/-- C10 (counterexample): 100 images are encountered (`processed = 100`, a
multiple of the interval), but because the 100th image is a dedup skip
the reclamation pass never fires — the pass is not independent of skips. -/
theorem gc_not_on_every_multiple_counterexample :
    (runIngest okEnv gcCorpus gcStore0).processed = 100 ∧
    100 % 100 = 0 ∧
    (runIngest okEnv gcCorpus gcStore0).gcFires = [] := by
  refine ⟨by decide, by decide, by decide⟩

/-! ## Dedup index build — `get_existing_keys` (lines 134–153)

A stored record of the `design_patents_full` collection, as far as the
dedup scan reads it: the auto-generated primary key and the two key
fields queried as `output_fields`.  `collection.query(expr=f'id > {last_id}',
..., limit=500)` is modelled under the store contract that query results
come back in ascending primary-key order (hypothesis `hsort` below) with
nonnegative auto-generated keys (hypothesis `hpos`); the `while True`
loop is modelled with fuel `len(store) + 1`, which the completeness proof
shows is enough. -/

structure StoredRec where
  id : Int
  patent_id : String
  file_name : String
deriving DecidableEq, Repr

/-- `f"{r['patent_id']}_{r['file_name']}"` (line 148). -/
def encodeKey (r : StoredRec) : String :=
  r.patent_id ++ "_" ++ r.file_name

/-- One `collection.query(expr=f'id > {last}', limit=500)` call. -/
def queryPage (store : List StoredRec) (last : Int) : List StoredRec :=
  (store.filter (fun r => decide (last < r.id))).take 500

/-- `max(r['id'] for r in results)` (line 149); never called on an empty
page. -/
def maxId : List StoredRec → Int
  | [] => -1
  | r :: rs => rs.foldl (fun m x => max m x.id) r.id

def getKeysLoop (store : List StoredRec) : Nat → Int → List String → List String
  | 0, _, acc => acc
  | fuel + 1, last, acc =>
    let page := queryPage store last
    if page.isEmpty then acc
    else getKeysLoop store fuel (maxId page) (acc ++ page.map encodeKey)

def get_existing_keys (store : List StoredRec) : List String :=
  getKeysLoop store (store.length + 1) (-1) []

theorem foldl_max_ge_init :
    ∀ (l : List StoredRec) (i : Int), i ≤ l.foldl (fun m x => max m x.id) i := by
  intro l
  induction l with
  | nil => intro i; exact le_refl i
  | cons x xs ih =>
    intro i
    exact le_trans (le_max_left i x.id) (ih (max i x.id))

theorem foldl_max_ge_mem :
    ∀ (l : List StoredRec) (i : Int) (r : StoredRec), r ∈ l →
      r.id ≤ l.foldl (fun m x => max m x.id) i := by
  intro l
  induction l with
  | nil => intro i r hr; simp at hr
  | cons x xs ih =>
    intro i r hr
    rcases List.mem_cons.1 hr with rfl | hr
    · exact le_trans (le_max_right i r.id) (foldl_max_ge_init xs (max i r.id))
    · exact ih (max i x.id) r hr

theorem foldl_max_eq_mem :
    ∀ (l : List StoredRec) (i : Int),
      l.foldl (fun m x => max m x.id) i = i ∨
      ∃ r ∈ l, l.foldl (fun m x => max m x.id) i = r.id := by
  intro l
  induction l with
  | nil => intro i; exact Or.inl rfl
  | cons x xs ih =>
    intro i
    rcases ih (max i x.id) with h | ⟨r, hr, hreq⟩
    · rcases max_choice i x.id with hm | hm
      · exact Or.inl (by rw [List.foldl_cons, h, hm])
      · exact Or.inr ⟨x, List.mem_cons_self x xs, by rw [List.foldl_cons, h, hm]⟩
    · exact Or.inr ⟨r, List.mem_cons_of_mem x hr, by rw [List.foldl_cons, hreq]⟩

theorem le_maxId (l : List StoredRec) (r : StoredRec) (h : r ∈ l) :
    r.id ≤ maxId l := by
  cases l with
  | nil => simp at h
  | cons y ys =>
    rcases List.mem_cons.1 h with rfl | hmem
    · exact foldl_max_ge_init ys r.id
    · exact foldl_max_ge_mem ys y.id r hmem

theorem maxId_mem (l : List StoredRec) (h : l ≠ []) : ∃ r ∈ l, maxId l = r.id := by
  cases l with
  | nil => exact absurd rfl h
  | cons y ys =>
    rcases foldl_max_eq_mem ys y.id with heq | ⟨r, hr, hreq⟩
    · exact ⟨y, List.mem_cons_self y ys, heq⟩
    · exact ⟨r, List.mem_cons_of_mem y hr, hreq⟩

theorem getKeysLoop_complete (store : List StoredRec)
    (hsort : store.Pairwise (fun a b => a.id < b.id)) :
    ∀ (fuel : Nat) (last : Int) (acc : List String),
      (store.filter (fun r => decide (last < r.id))).length < fuel →
      getKeysLoop store fuel last acc =
        acc ++ (store.filter (fun r => decide (last < r.id))).map encodeKey := by
  intro fuel
  induction fuel with
  | zero => intro last acc h; omega
  | succ fuel ih =>
    intro last acc hlt
    by_cases hpage : (queryPage store last).isEmpty
    · have hFnil : store.filter (fun r => decide (last < r.id)) = [] := by
        rcases List.take_eq_nil_iff.1 (List.isEmpty_iff.1 hpage) with h | h
        · simp at h
        · exact h
      rw [getKeysLoop, if_pos hpage, hFnil]
      simp
    · rw [getKeysLoop, if_neg hpage]
      have hpne : queryPage store last ≠ [] := fun h => by
        rw [h] at hpage; simp at hpage
      obtain ⟨rm, hrm, hrmeq⟩ := maxId_mem _ hpne
      have hrmF : rm ∈ store.filter (fun r => decide (last < r.id)) :=
        List.mem_of_mem_take hrm
      have hlast_lt : last < maxId (queryPage store last) := by
        rw [hrmeq]
        exact of_decide_eq_true (List.mem_filter.1 hrmF).2
      have hFsort : (store.filter (fun r => decide (last < r.id))).Pairwise
          (fun a b => a.id < b.id) := hsort.filter _
      have hcross : ∀ x ∈ (store.filter (fun r => decide (last < r.id))).take 500,
          ∀ y ∈ (store.filter (fun r => decide (last < r.id))).drop 500, x.id < y.id := by
        have hsplit := hFsort
        rw [← List.take_append_drop 500 (store.filter (fun r => decide (last < r.id))),
          List.pairwise_append] at hsplit
        exact hsplit.2.2
      have hdrop : ∀ y ∈ (store.filter (fun r => decide (last < r.id))).drop 500,
          maxId (queryPage store last) < y.id := by
        intro y hy
        rw [hrmeq]
        exact hcross rm hrm y hy
      have htake : ∀ x ∈ (store.filter (fun r => decide (last < r.id))).take 500,
          ¬(maxId (queryPage store last) < x.id) := by
        intro x hx
        have := le_maxId (queryPage store last) x hx
        omega
      have hfilter2 : store.filter (fun r => decide (maxId (queryPage store last) < r.id)) =
          (store.filter (fun r => decide (last < r.id))).drop 500 := by
        have hstep1 : store.filter (fun r => decide (maxId (queryPage store last) < r.id)) =
            (store.filter (fun r => decide (last < r.id))).filter
              (fun r => decide (maxId (queryPage store last) < r.id)) := by
          rw [List.filter_filter]
          apply List.filter_congr
          intro a _
          by_cases hq : maxId (queryPage store last) < a.id
          · have hp : last < a.id := lt_trans hlast_lt hq
            simp [hq, hp]
          · simp [hq]
        rw [hstep1]
        rw [← List.take_append_drop 500 (store.filter (fun r => decide (last < r.id))),
          List.filter_append]
        have h1 : ((store.filter (fun r => decide (last < r.id))).take 500).filter
            (fun r => decide (maxId (queryPage store last) < r.id)) = [] := by
          rw [List.filter_eq_nil_iff]
          intro a ha hcon
          exact htake a ha (of_decide_eq_true hcon)
        have h2 : ((store.filter (fun r => decide (last < r.id))).drop 500).filter
            (fun r => decide (maxId (queryPage store last) < r.id)) =
            (store.filter (fun r => decide (last < r.id))).drop 500 := by
          rw [List.filter_eq_self]
          intro a ha
          exact decide_eq_true (hdrop a ha)
        rw [List.take_append_drop, h1, h2]
        simp
      have hmeas : (store.filter
          (fun r => decide (maxId (queryPage store last) < r.id))).length < fuel := by
        rw [hfilter2, List.length_drop]
        have hFpos : 0 < (store.filter (fun r => decide (last < r.id))).length :=
          List.length_pos.2 (fun h => by
            rw [queryPage, h] at hpne
            simp at hpne)
        omega
      rw [ih (maxId (queryPage store last)) (acc ++ (queryPage store last).map encodeKey)
        hmeas, hfilter2]
      rw [List.append_assoc, ← List.map_append]
      rw [queryPage, List.take_append_drop]

/-- C8: under the store contract that query pages come back in ascending
primary-key order and auto-generated primary keys are nonnegative, the
paginated cursor scan of `get_existing_keys` returns exactly the
`patent_id_file_name` keys present in the store — no stored key is
missing and nothing else is returned. -/
theorem get_existing_keys_complete (store : List StoredRec)
    (hsort : store.Pairwise (fun a b => a.id < b.id))
    (hpos : ∀ r ∈ store, 0 ≤ r.id) (k : String) :
    k ∈ get_existing_keys store ↔ ∃ r ∈ store, encodeKey r = k := by
  have hmeas : (store.filter (fun r => decide ((-1 : Int) < r.id))).length <
      store.length + 1 :=
    lt_of_le_of_lt (List.length_filter_le _ _) (Nat.lt_succ_self _)
  rw [get_existing_keys, getKeysLoop_complete store hsort _ _ _ hmeas]
  have hfilter : store.filter (fun r => decide ((-1 : Int) < r.id)) = store :=
    List.filter_eq_self.2 (fun a ha => decide_eq_true (by have := hpos a ha; omega))
  rw [hfilter]
  simp [List.mem_map]

/-- Witness for C8 at a concrete two-record store. -/
theorem get_existing_keys_complete_witness :
    ([⟨0, "A", "x"⟩, ⟨1, "B", "y"⟩] : List StoredRec).Pairwise (fun a b => a.id < b.id) ∧
    (∀ r ∈ ([⟨0, "A", "x"⟩, ⟨1, "B", "y"⟩] : List StoredRec), 0 ≤ r.id) ∧
    ("A_x" ∈ get_existing_keys [⟨0, "A", "x"⟩, ⟨1, "B", "y"⟩] ↔
      ∃ r ∈ ([⟨0, "A", "x"⟩, ⟨1, "B", "y"⟩] : List StoredRec), encodeKey r = "A_x") :=
  ⟨by decide, by decide,
    get_existing_keys_complete _ (by decide) (by decide) "A_x"⟩

/-! ## Corpus scanner — `scan_design_patents` in
`scripts/design_patent_parser.py` (lines 252–285)

The file system is a list of directory entries as `data_path.glob('USD*')`
would deliver them; XML parsing (`parse_design_patent_xml`) is an opaque
parameter returning `none` on failure, matching its `Optional` return. -/

structure ParsedPatent where
  patent_id : String
  title : String
deriving DecidableEq, Repr

structure DirEntry where
  name : String
  isDir : Bool
  xmlFiles : List String
deriving DecidableEq, Repr

/-- The scanner-level log lines: `[SCAN] 解析成功`/`[SCAN] 解析失败`. -/
inductive ScanDiag where
  | scanOk (pid : String)
  | scanFail (path : String)
deriving DecidableEq, Repr

/-- One iteration of `for patent_dir in data_path.glob('USD*')`. -/
def scanStep (parse : String → Option ParsedPatent)
    (st : List ParsedPatent × List ScanDiag) (d : DirEntry) :
    List ParsedPatent × List ScanDiag :=
  if !(leadMatch d.name.toList "USD".toList) then st
  else if !d.isDir then st
  else
    match d.xmlFiles with
    | [] => st
    | x :: _ =>
      match parse x with
      | some p => (st.1 ++ [p], st.2 ++ [ScanDiag.scanOk p.patent_id])
      | none => (st.1, st.2 ++ [ScanDiag.scanFail x])

def scan_design_patents (fs : List DirEntry)
    (parse : String → Option ParsedPatent) :
    List ParsedPatent × List ScanDiag :=
  fs.foldl (scanStep parse) ([], [])

/-- An entry the `glob('USD*')`/`is_dir()` pair lets through: its name
starts with `USD` and it is a directory. -/
def scanCandidate (d : DirEntry) : Bool :=
  leadMatch d.name.toList "USD".toList && d.isDir

theorem scan_foldl_closed (parse : String → Option ParsedPatent) :
    ∀ (fs : List DirEntry) (st : List ParsedPatent × List ScanDiag),
      (fs.foldl (scanStep parse) st).1 =
        st.1 ++ (fs.filter scanCandidate).filterMap
          (fun d => d.xmlFiles.head?.bind parse) ∧
      (fs.foldl (scanStep parse) st).2.length =
        st.2.length +
          (fs.filter (fun d => scanCandidate d && !d.xmlFiles.isEmpty)).length := by
  intro fs
  induction fs with
  | nil => intro st; simp
  | cons d rest ih =>
    intro st
    rw [List.foldl_cons]
    have hstep :
        (scanStep parse st d).1 =
          st.1 ++ (if scanCandidate d then
            (d.xmlFiles.head?.bind parse).toList else []) ∧
        (scanStep parse st d).2.length =
          st.2.length +
            (if scanCandidate d && !d.xmlFiles.isEmpty then 1 else 0) := by
      clear ih
      simp only [scanStep]
      cases hb : leadMatch d.name.toList "USD".toList with
      | false => simp_all [scanCandidate]
      | true =>
        cases hd : d.isDir with
        | false => simp_all [scanCandidate]
        | true =>
          cases hx : d.xmlFiles with
          | nil => simp_all [scanCandidate]
          | cons x xs =>
            cases hp : parse x with
            | some p => simp_all [scanCandidate]
            | none => simp_all [scanCandidate]
    have hrest := ih (scanStep parse st d)
    refine ⟨?_, ?_⟩
    · rw [hrest.1, hstep.1]
      by_cases hc : scanCandidate d = true
      · cases hb : d.xmlFiles.head?.bind parse <;>
          simp [hc, hb, List.filter_cons, List.filterMap_cons, List.append_assoc]
      · simp [hc, List.filter_cons]
    · rw [hrest.2, hstep.2]
      by_cases hc1 : scanCandidate d = true <;> cases hx : d.xmlFiles <;>
        simp [hc1, hx, List.filter_cons] <;> omega

/-- C3 (amended): the scanner visits every subdirectory independently and
never aborts; a candidate directory with zero XML files is skipped
*silently* (no diagnostic); one with one or more XML files has its *first*
XML file parsed (extra candidates are neither rejected nor reported); only
a directory that yields a parse is included, and exactly the directories
with at least one XML file produce one diagnostic each (success or
failure). -/
theorem scan_skip_and_continue (fs : List DirEntry)
    (parse : String → Option ParsedPatent) :
    (scan_design_patents fs parse).1 =
      (fs.filter scanCandidate).filterMap
        (fun d => d.xmlFiles.head?.bind parse) ∧
    (scan_design_patents fs parse).2.length =
      (fs.filter (fun d => scanCandidate d && !d.xmlFiles.isEmpty)).length := by
  have h := scan_foldl_closed parse fs ([], [])
  simpa [scan_design_patents] using h

/-- C3 (counterexample): a subdirectory holding *two* candidate XML files
is not skipped — its first file is parsed and yields an entry — and a
subdirectory with *zero* candidate XML files is skipped without any
diagnostic, contrary to the claim. -/
theorem scan_multi_xml_counterexample :
    (scan_design_patents [⟨"USD1", true, ["a.XML", "b.XML"]⟩]
      (fun _ => some ⟨"D1", "t"⟩)).1 = [⟨"D1", "t"⟩] ∧
    (scan_design_patents [⟨"USD2", true, []⟩]
      (fun _ => some ⟨"D1", "t"⟩)).2 = [] := by
  exact ⟨by decide, by decide⟩

/-! ## HTTP response envelopes — `app/api/search_design.py`

Each endpoint is modelled as a function from the outcome of its body to
the response it returns: the `try/except` handlers of the search, detail
and stats endpoints turn any exception into a `{code, message, data}`
envelope, while `get_design_image` raises `HTTPException(404)` when the
object store has no such image and `HTTPException(500)` when processing
fails — transport-level statuses, not envelopes. -/

inductive ApiResponse where
  | envelope (code : Nat) (message : Option String) (hasData : Bool)
  | httpError (status : Nat) (detail : String)
  | jpegStream
deriving DecidableEq, Repr

inductive ReqOutcome where
  | ok
  | exn (msg : String)
deriving DecidableEq, Repr

inductive DetailOutcome where
  | found
  | notFound
  | exn (msg : String)
deriving DecidableEq, Repr

inductive ImageOutcome where
  | notFound
  | processFail (msg : String)
  | ok
deriving DecidableEq, Repr

def search_design_patents_endpoint : ReqOutcome → ApiResponse
  | .ok => .envelope 0 (some "success") true
  | .exn m => .envelope 1 (some m) false

def get_patent_detail_endpoint : DetailOutcome → ApiResponse
  | .found => .envelope 0 none true
  | .notFound => .envelope 1 (some "Patent not found") false
  | .exn m => .envelope 1 (some m) false

def get_design_stats_endpoint : ReqOutcome → ApiResponse
  | .ok => .envelope 0 none true
  | .exn m => .envelope 1 (some m) false

def get_design_image_endpoint (patent_id file_name : String) :
    ImageOutcome → ApiResponse
  | .notFound =>
    .httpError 404 ("Image not found: design_patents/" ++ patent_id ++ "/" ++ file_name)
  | .processFail m => .httpError 500 ("Failed to process image: " ++ m)
  | .ok => .jpegStream

def isEnvelope : ApiResponse → Bool
  | .envelope _ _ _ => true
  | _ => false

/-- C9 (counterexample): when the object store has no such image, the
image endpoint answers with a transport-level 404, not with a
`{code, message, data}` envelope. -/
theorem image_endpoint_http_error_counterexample :
    get_design_image_endpoint "USD1" "a.TIF" ImageOutcome.notFound =
      ApiResponse.httpError 404 "Image not found: design_patents/USD1/a.TIF" ∧
    isEnvelope (get_design_image_endpoint "USD1" "a.TIF" ImageOutcome.notFound) = false :=
  ⟨by decide, by decide⟩

/-- C9 (amended): the search, patent-detail and stats endpoints answer
every outcome — success or failure — with an envelope, failure carrying a
non-zero code and a message; the image endpoint, by exception, reports
failure as transport-level HTTP errors (404 for a missing object, 500 for
a processing failure). -/
theorem query_endpoints_envelope_except_image :
    (∀ o, isEnvelope (search_design_patents_endpoint o) = true) ∧
    (∀ m, search_design_patents_endpoint (ReqOutcome.exn m) =
      ApiResponse.envelope 1 (some m) false) ∧
    (∀ o, isEnvelope (get_patent_detail_endpoint o) = true) ∧
    (∀ m, get_patent_detail_endpoint (DetailOutcome.exn m) =
      ApiResponse.envelope 1 (some m) false) ∧
    (∀ o, isEnvelope (get_design_stats_endpoint o) = true) ∧
    (∀ m, get_design_stats_endpoint (ReqOutcome.exn m) =
      ApiResponse.envelope 1 (some m) false) ∧
    (∀ pid fn, get_design_image_endpoint pid fn ImageOutcome.notFound =
      ApiResponse.httpError 404
        ("Image not found: design_patents/" ++ pid ++ "/" ++ fn)) ∧
    (∀ pid fn m, get_design_image_endpoint pid fn (ImageOutcome.processFail m) =
      ApiResponse.httpError 500 ("Failed to process image: " ++ m)) := by
  refine ⟨?_, ?_, ?_, ?_, ?_, ?_, ?_, ?_⟩
  · intro o; cases o <;> rfl
  · intro m; rfl
  · intro o; cases o <;> rfl
  · intro m; rfl
  · intro o; cases o <;> rfl
  · intro m; rfl
  · intro pid fn; rfl
  · intro pid fn m; rfl

end DinovMilvus
